import Mathlib

/-!
Verification of the load-forecasting-sweden repository's core tabular logic.

The repository's core is a small pandas pipeline:
  * `get_time_range` (src/data_fetch.py)        — time-range calculator
  * `fetch_load_df` (src/data_fetch.py)         — fetch + display-schema normalisation
  * `to_storage_df` / `to_display_df`           — schema converters
  * `update_history_parquet_multi`              — the history reconciler
  * `_to_tidy` (scripts/historical_data_fetch.py) — the tidy normaliser
  * `compute_yearly_peak_loads` (src/analytics.py) — yearly peak extractor

We embed each as a pure Lean function over explicit row lists.  Modelling
conventions, chosen to match pandas semantics:

  * A dataframe column of rows is a `List` of per-row structures.
  * A tz-aware pandas `Timestamp` is `TS`: an absolute instant (seconds since
    epoch, as `Int`) plus a timezone tag.  `tz_convert` changes only the tag;
    `tz_localize "UTC"` on a naive value tags the stored number as-is.  The
    zones involved (UTC, Europe/Stockholm) have whole-hour offsets, so hour
    flooring on the instant agrees with wall-clock hour flooring.
  * Missing data (`NaT`, `NaN`) is `Option.none`.  Numeric values are modelled
    as `Int`; none of the verified claims depends on float-specific behaviour.
  * `DataFrame.sort_values` on several columns uses `np.lexsort`, which is a
    stable sort; we model it with a stable insertion sort `sortBy`.
  * `drop_duplicates(subset=ks, keep="last")` keeps, for every key, the last
    occurrence in frame order, preserving the order of kept rows; this is
    `dropDupKeepLast` below and does not presuppose sortedness.
-/

/-! ## Generic stable sorting and keep-last deduplication -/

/-- Insert `r` into `l`, placing it before the first element that does not
strictly precede it under `lt`.  Folded over a list this yields a stable
insertion sort. -/

def insertBy {α : Type} (lt : α → α → Bool) (r : α) : List α → List α
  | [] => [r]
  | x :: xs => if lt x r then x :: insertBy lt r xs else r :: x :: xs

/-- Stable sort: elements whose keys compare equal keep their original
relative order, as in `np.lexsort` / pandas multi-column `sort_values`. -/

def sortBy {α : Type} (lt : α → α → Bool) : List α → List α
  | [] => []
  | x :: xs => insertBy lt x (sortBy lt xs)

/-- `drop_duplicates(subset=key, keep="last")`: keep a row iff no later row
has the same key; the order of kept rows is preserved. -/

def dropDupKeepLast {α κ : Type} [DecidableEq κ] (kf : α → κ) : List α → List α
  | [] => []
  | r :: rs =>
      if rs.any (fun x => decide (kf x = kf r)) then dropDupKeepLast kf rs
      else r :: dropDupKeepLast kf rs

/-- The last element of a list, if any (the row `drop_duplicates(keep="last")`
retains for a key, once the list is restricted to that key). -/

def lastOf {α : Type} : List α → Option α
  | [] => none
  | [a] => some a
  | _ :: b :: t => lastOf (b :: t)

/-! ## Lexicographic order on strings and on `(zone, timestamp)` keys

Python compares strings by code points, lexicographically; pandas sorts
object columns of strings with that order.  Lean's built-in `String.lt`
is the same order but is defined by well-founded recursion and does not
reduce in the kernel, so we use a structurally recursive copy over the
character list. -/

def charListLt : List Char → List Char → Bool
  | [], [] => false
  | [], _ :: _ => true
  | _ :: _, [] => false
  | a :: as, b :: bs => if a < b then true else if b < a then false else charListLt as bs

def strLt (a b : String) : Bool := charListLt a.data b.data

/-- Strict lexicographic order on a `(zone, timestamp)` sort key, as produced
by `sort_values(["zone", "date"])`. -/

def keyLTb (a b : String × Int) : Bool :=
  strLt a.1 b.1 || (a.1 == b.1 && decide (a.2 < b.2))

/-- Non-strict companion of `keyLTb`. -/

def keyLEb (a b : String × Int) : Bool := !(keyLTb b a)

/-! ## Data model

`TS` is a tz-aware pandas `Timestamp`: an absolute instant plus a timezone
tag.  `tz_convert` re-tags without moving the instant.  In pandas a
datetime column carries a single timezone for all its cells; two tz-aware
timestamps compare equal iff their instants coincide, which is why sort and
dedup keys below use only the instant. -/

structure TS where
  instant : Int
  tz : String
deriving DecidableEq

/-- Retag a timestamp with a new timezone; the instant is unchanged
(`Series.dt.tz_convert` / `DatetimeIndex.tz_convert`). -/

def tz_convert (t : TS) (z : String) : TS := ⟨t.instant, z⟩

/-- A storage-schema row, columns `["date", "zone", "load_mw"]`.  `none`
models `NaT` / `NaN`. -/

structure StorageRow where
  date : Option TS
  zone : Option String
  load_mw : Option Int
deriving DecidableEq

/-- A display-schema row: columns `["Date", "Load (MW)"]` plus, after
`to_display_df`, the `zone` column.  `fetch_load_df` output has no zone
column, modelled as `zone := none`; `to_storage_df` ignores the field
either way, like the source, which selects only `Date` and `Load (MW)`. -/

structure DisplayRow where
  Date : Option TS
  load : Option Int
  zone : Option String
deriving DecidableEq

/-- The module-level display timezone from `config.py`. -/

def TZ : String := "Europe/Stockholm"

/-! ## Time-Range Calculator — `get_time_range` (src/data_fetch.py) -/

/-- `Timestamp.floor("h")`: floor an instant to the start of its hour.
`Int.emod` is always non-negative for a positive modulus, so this is a
true floor also for instants before the epoch.  The zones used
(UTC, Europe/Stockholm) have whole-hour UTC offsets, so flooring the
instant agrees with flooring the local wall clock. -/

def floorHour (t : Int) : Int := t - t % 3600

/-- `get_time_range(days_back)`.  The wall-clock reading
`pd.Timestamp.now(tz=TZ)` is passed in explicitly as `now` (seconds since
epoch).  The function floors `now` to the hour and steps back
`days_back` days; it performs no validation whatsoever. -/

def get_time_range (days_back : Int) (now : Int) : Int × Int :=
  let nowf := floorHour now
  let start := nowf - days_back * 86400
  (start, nowf)

/-! ## Raw provider frames and the value-column model

A raw frame models what `entsoe-py` returns: a time index (one timezone tag
for the whole index, possibly none) and named columns.  A numeric cell is
`Cell.num`; `Cell.nan` is a float `NaN`; `Cell.other` is a non-numeric cell
whose `pd.to_numeric(errors="coerce")` result is recorded in the
constructor (string parsing itself is outside the model). -/

inductive Cell where
  | num (v : Int)
  | nan
  | other (parsed : Option Int)
deriving DecidableEq

/-- A named dataframe column with its dtype flag
(`pd.api.types.is_numeric_dtype`). -/

structure RawCol where
  name : String
  numeric : Bool
  cells : List Cell
deriving DecidableEq

/-- A raw time-indexed frame. -/

structure RawFrame where
  indexName : Option String
  indexTz : Option String
  indexVals : List (Option Int)
  cols : List RawCol
deriving DecidableEq

/-- `pd.to_numeric(errors="coerce")` on one cell. -/

def toNumeric : Cell → Option Int
  | Cell.num v => some v
  | Cell.nan => none
  | Cell.other p => p

/-- Whether `dropna` considers the cell missing.  A non-numeric cell such
as an unparseable string is *not* missing at this point. -/

def cellIsNA : Cell → Bool
  | Cell.nan => true
  | _ => false

/-! ## `fetch_load_df` (src/data_fetch.py)

The incremental pipeline's normaliser: localize a naive index as UTC,
convert to the display timezone `tz`, take the first column other than
`Date` as the load column, coerce it numerically, and sort by `Date`.
Note the absence of any `dropna`: unparseable loads stay as `NaN` rows. -/

/-- Ascending `sort_values("Date")` comparison; missing dates sort last
(`na_position="last"`). -/

def fetchRowLT (a b : DisplayRow) : Bool :=
  match a.Date, b.Date with
  | some x, some y => decide (x.instant < y.instant)
  | some _, none => true
  | none, _ => false

def fetch_load_df (data : RawFrame) (tz : String) : Except String (List DisplayRow) :=
  let dates : List (Option TS) :=
    data.indexVals.map (fun o => o.map (fun i => tz_convert ⟨i, "UTC"⟩ tz))
  let value_cols := data.cols.filter (fun c => c.name ≠ "Date")
  match value_cols with
  | [] => Except.error "No value column returned from ENTSO-E."
  | c :: _ =>
      Except.ok (sortBy fetchRowLT
        ((dates.zip c.cells).map (fun p => DisplayRow.mk p.1 (toNumeric p.2) none)))

/-! ## Schema Converter — `to_storage_df` / `to_display_df` (src/data_fetch.py) -/

/-- `to_storage_df`: convert the display timestamp to UTC, attach the zone
label, rename the value column.  A present zone label is attached to every
row. -/

def to_storage_df (display_df : List DisplayRow) (zone_label : String) : List StorageRow :=
  display_df.map (fun r =>
    StorageRow.mk (r.Date.map (fun t => tz_convert t "UTC")) (some zone_label) r.load)

/-- Sort key of a storage row under `sort_values(["zone", "date"])`.
Rows reaching the sort have non-missing zone and date (the reconciler
drops the rest first), so the defaults are never exercised there. -/

def keyOf (r : StorageRow) : String × Int :=
  (r.zone.getD "", (r.date.map TS.instant).getD 0)

def rowLT (a b : StorageRow) : Bool := keyLTb (keyOf a) (keyOf b)

/-- Sort key of a display row under `sort_values(["zone", "Date"])`. -/

def dispKeyOf (r : DisplayRow) : String × Int :=
  (r.zone.getD "", (r.Date.map TS.instant).getD 0)

def dispRowLT (a b : DisplayRow) : Bool := keyLTb (dispKeyOf a) (dispKeyOf b)

/-- `to_display_df`: convert the UTC timestamp to `tz`, rename the value
column, keep the zone column, and sort by `(zone, Date)`. -/

def to_display_df (storage_df : List StorageRow) (tz : String) : List DisplayRow :=
  sortBy dispRowLT
    (storage_df.map (fun r =>
      DisplayRow.mk (r.date.map (fun t => tz_convert t tz)) r.load_mw r.zone))

/-! ## History Reconciler — `update_history_parquet_multi` (src/data_fetch.py)

`reconcile(existing, incoming)`: concatenate (incoming after existing, or
incoming alone when no parquet file exists yet), `dropna` on
`["date", "zone"]`, `sort_values(["zone", "date"])` (stable), then
`drop_duplicates(subset=["date", "zone"], keep="last")`.  The parquet read
re-tags `hist["date"]` with `utc=True`, a no-op on instants; the write-back
is file I/O and not part of the value-level model. -/

/-- `dropna(subset=["date", "zone"])` row predicate. -/

def validRow (r : StorageRow) : Bool := r.date.isSome && r.zone.isSome

def update_history_parquet_multi (hist : Option (List StorageRow))
    (new_df : List StorageRow) : List StorageRow :=
  let combo := match hist with
    | some h => h ++ new_df
    | none => new_df
  dropDupKeepLast keyOf (sortBy rowLT (combo.filter validRow))

/-! ## Tidy Normalizer — `_to_tidy` (scripts/historical_data_fetch.py) -/

/-- A tidy output row, columns `["date", value_name]`. -/

structure TidyRow where
  date : Option TS
  value : Option Int
deriving DecidableEq

/-- Ascending `sort_values("date")` comparison for tidy rows. -/

def tidyRowLT (a b : TidyRow) : Bool :=
  match a.date, b.date with
  | some x, some y => decide (x.instant < y.instant)
  | some _, none => true
  | none, _ => false

/-- One row of `df[num_cols].sum(axis=1)`: pandas sums with `skipna=True`
and `min_count=0`, so missing cells contribute `0` and an all-missing row
sums to `0`. -/

def cellNumOr0 : Cell → Int
  | Cell.num v => v
  | _ => 0

def rowSum (cols : List RawCol) (n : Nat) : List Cell :=
  (List.range n).map (fun i =>
    Cell.num (cols.foldl (fun acc c => acc + cellNumOr0 (c.cells.getD i Cell.nan)) 0))

/-- The value-column resolution of `_to_tidy` (lines 59–69 of
scripts/historical_data_fetch.py), returning the cells of the column that
ends up named `value_name`.  Order: (a) an existing column named
`value_name`; (b) a unique numeric column, renamed; (c) several numeric
columns, summed row-wise; (d) the first column whose name differs from the
index name (`"index"` when the index is unnamed); if none exists,
`ValueError("No value column in response.")`. -/

def resolveValue (df : RawFrame) (value_name : String) : Except String (List Cell) :=
  match df.cols.find? (fun c => c.name == value_name) with
  | some c => Except.ok c.cells
  | none =>
      match df.cols.filter (fun c => c.numeric) with
      | [c] => Except.ok c.cells
      | [] =>
          match df.cols.filter (fun c => c.name ≠ df.indexName.getD "index") with
          | [] => Except.error "No value column in response."
          | c :: _ => Except.ok c.cells
      | cs => Except.ok (rowSum cs df.indexVals.length)

/-- `_to_tidy`: localize a naive index as UTC (never as local time), or
convert an aware index to UTC — both keep the instant; resolve the value
column; `dropna(subset=["date", value_name])`; coerce the value column
numerically; `dropna(subset=[value_name])`; sort ascending by `date`.
A `Series` input corresponds to a one-column frame already named
`value_name`. -/

def «_to_tidy» (df_or_s : RawFrame) (value_name : String) :
    Except String (List TidyRow) :=
  (resolveValue df_or_s value_name).map (fun cells =>
    let dates : List (Option TS) :=
      df_or_s.indexVals.map (fun o => o.map (fun i => (⟨i, "UTC"⟩ : TS)))
    let pairs := (dates.zip cells).filter (fun p => p.1.isSome && !(cellIsNA p.2))
    let rows := pairs.map (fun p => TidyRow.mk p.1 (toNumeric p.2))
    sortBy tidyRowLT (rows.filter (fun r => r.value.isSome)))

/-! ## Yearly Peak Extractor — `compute_yearly_peak_loads` (src/analytics.py)

The display timestamps consumed here are modelled as wall-clock values in
the display timezone, split as `(year, minuteOfYear)`: `.dt.year` reads the
first component, and the final `strftime("%Y-%m-%d %H:%M")` is the identity
at this (minute) granularity. -/

/-- A wall-clock display datetime at minute precision. -/

structure DDate where
  year : Int
  minuteOfYear : Int
deriving DecidableEq

/-- A display-table row consumed by the peak extractor, columns
`["Date", "Load (MW)"]`. -/

structure DRow where
  Date : DDate
  load : Option Int
deriving DecidableEq

/-- A yearly peak record, columns `["Year", "Date", "Load (MW)"]`. -/

structure PeakRec where
  Year : Int
  Date : DDate
  load : Option Int
deriving DecidableEq

/-- `Series.unique()`: distinct values in order of first appearance. -/

def uniqueFirstAux (seen : List Int) : List Int → List Int
  | [] => []
  | y :: ys =>
      if y ∈ seen then uniqueFirstAux seen ys
      else y :: uniqueFirstAux (y :: seen) ys

def uniqueFirst (l : List Int) : List Int := uniqueFirstAux [] l

/-- `sort_values("Load (MW)", ascending=False)` comparison: larger loads
first, missing loads last (`na_position="last"`). -/

def loadDescLT (a b : DRow) : Bool :=
  match a.load, b.load with
  | some x, some y => decide (y < x)
  | some _, none => true
  | none, _ => false

/-- `sort_values("Year")` comparison on the peak table. -/

def yearLT (a b : PeakRec) : Bool := decide (a.Year < b.Year)

/-- `compute_yearly_peak_loads`: for each year in order of first
appearance, sort that year's rows by descending load and take `iloc[0]`;
collect into a frame, `sort_values("Year")`, and format the date column.
On an empty input the collected frame `pd.DataFrame([])` has no columns at
all, so `sort_values("Year")` raises a `KeyError`.  For a year drawn from
the frame the year's row set is non-empty, so the `iloc[0]` inside
`filterMap` always yields a row. -/

def compute_yearly_peak_loads (df : List DRow) : Except String (List PeakRec) :=
  let years := uniqueFirst (df.map (fun r => r.Date.year))
  let max_loads := years.filterMap (fun y =>
    (sortBy loadDescLT (df.filter (fun r => decide (r.Date.year = y)))).head?.map
      (fun m => PeakRec.mk y m.Date m.load))
  if max_loads.isEmpty then Except.error "KeyError: Year"
  else Except.ok (sortBy yearLT max_loads)

/-! ## Concrete sample data used by witnesses -/

/-- A small already-reconciled storage table: two zones, hourly rows. -/

def sampleT : List StorageRow :=
  [StorageRow.mk (some ⟨3600, "UTC"⟩) (some "SE1") (some 100),
   StorageRow.mk (some ⟨7200, "UTC"⟩) (some "SE1") (some 200),
   StorageRow.mk (some ⟨3600, "UTC"⟩) (some "SE2") (some 300)]

/-- A revision of the second row of `sampleT`: same key, new value. -/

def sampleRev : StorageRow := StorageRow.mk (some ⟨7200, "UTC"⟩) (some "SE1") (some 999)

/-! ## Witness data for the normaliser claims -/

/-- A well-behaved naive-indexed raw frame with one numeric column. -/

def rawGood : RawFrame :=
  RawFrame.mk none none [some 0, some 3600]
    [RawCol.mk "Actual Load" true [Cell.num 5, Cell.num 7]]

/-- The tidy output of `rawGood` (values renamed to `load_mw`). -/

def tidyGood : List TidyRow :=
  [TidyRow.mk (some ⟨0, "UTC"⟩) (some 5), TidyRow.mk (some ⟨3600, "UTC"⟩) (some 7)]

/-- A raw frame whose single (non-numeric) value column holds one cell
that `pd.to_numeric(errors="coerce")` cannot parse. -/

def rawUnparseable : RawFrame :=
  RawFrame.mk none none [some 3600] [RawCol.mk "load" false [Cell.other none]]

/-- A raw frame with no usable column at all: its only column is named
like the unnamed index placeholder. -/

def rawNoValue : RawFrame :=
  RawFrame.mk none none [some 0] [RawCol.mk "index" false [Cell.num 1]]

/-! ## Decomposition of the yearly peak extractor used by its lemmas -/

/-- The distinct years of a display table, in order of first appearance. -/

def peakYears (df : List DRow) : List Int := uniqueFirst (df.map (fun r => r.Date.year))

/-- The per-year peak records before the final `sort_values("Year")`. -/

def peakRows (df : List DRow) : List PeakRec :=
  (peakYears df).filterMap (fun y =>
    (sortBy loadDescLT (df.filter (fun r => decide (r.Date.year = y)))).head?.map
      (fun m => PeakRec.mk y m.Date m.load))

/-- The display rows of the spec's concrete example: (2023-01-01, 100),
(2023-06-01, 500), (2024-01-01, 200), with June 1st as a minute-of-year
ordinal. -/

def exampleRows : List DRow :=
  [DRow.mk ⟨2023, 0⟩ (some 100), DRow.mk ⟨2023, 217440⟩ (some 500),
   DRow.mk ⟨2024, 0⟩ (some 200)]

theorem insertBy_perm {α : Type} (lt : α → α → Bool) (r : α) (l : List α) :
    List.Perm (insertBy lt r l) (r :: l) := by
  induction l with
  | nil => simp [insertBy]
  | cons x xs ih =>
      simp only [insertBy]
      by_cases h : lt x r = true
      · simp only [h, if_true]
        exact (ih.cons x).trans (List.Perm.swap r x xs)
      · simp [h]

theorem sortBy_perm {α : Type} (lt : α → α → Bool) (l : List α) :
    List.Perm (sortBy lt l) l := by
  induction l with
  | nil => simp [sortBy]
  | cons x xs ih =>
      exact (insertBy_perm lt x (sortBy lt xs)).trans (ih.cons x)

theorem mem_sortBy {α : Type} (lt : α → α → Bool) (l : List α) (a : α) :
    a ∈ sortBy lt l ↔ a ∈ l :=
  (sortBy_perm lt l).mem_iff

theorem sortBy_ne_nil {α : Type} (lt : α → α → Bool) (l : List α) (h : l ≠ []) :
    sortBy lt l ≠ [] := by
  intro hcon
  have := (sortBy_perm lt l).length_eq
  rw [hcon] at this
  exact h (List.length_eq_zero.mp this.symm)

theorem pairwise_insertBy {α : Type} (lt : α → α → Bool)
    (hasymm : ∀ a b, lt a b = true → lt b a = false)
    (hnt : ∀ a b c, lt a b = false → lt b c = false → lt a c = false)
    (r : α) (l : List α) (hl : l.Pairwise (fun a b => lt b a = false)) :
    (insertBy lt r l).Pairwise (fun a b => lt b a = false) := by
  induction l with
  | nil => simp [insertBy]
  | cons x xs ih =>
      rw [List.pairwise_cons] at hl
      simp only [insertBy]
      cases h : lt x r with
      | true =>
          rw [if_pos rfl, List.pairwise_cons]
          refine ⟨?_, ih hl.2⟩
          intro y hy
          rcases List.mem_cons.mp ((insertBy_perm lt r xs).mem_iff.mp hy) with hy | hy
          · rw [hy]; exact hasymm x r h
          · exact hl.1 y hy
      | false =>
          rw [if_neg (by simp), List.pairwise_cons]
          refine ⟨?_, List.pairwise_cons.mpr hl⟩
          intro y hy
          rcases List.mem_cons.mp hy with hy | hy
          · rw [hy]; exact h
          · exact hnt y x r (hl.1 y hy) h

theorem sortBy_sorted {α : Type} (lt : α → α → Bool)
    (hasymm : ∀ a b, lt a b = true → lt b a = false)
    (hnt : ∀ a b c, lt a b = false → lt b c = false → lt a c = false)
    (l : List α) :
    (sortBy lt l).Pairwise (fun a b => lt b a = false) := by
  induction l with
  | nil => simp [sortBy]
  | cons x xs ih => exact pairwise_insertBy lt hasymm hnt x (sortBy lt xs) ih

/-- If the head of a descending-sorted list exists, it is an element no other
element strictly precedes (an `iloc[0]` after `sort_values(ascending=False)`
is a row attaining the extremum). -/

theorem head?_sortBy {α : Type} (lt : α → α → Bool)
    (hirr : ∀ a, lt a a = false)
    (hasymm : ∀ a b, lt a b = true → lt b a = false)
    (hnt : ∀ a b c, lt a b = false → lt b c = false → lt a c = false)
    (l : List α) (m : α) (h : (sortBy lt l).head? = some m) :
    m ∈ l ∧ ∀ x ∈ l, lt x m = false := by
  have hsorted := sortBy_sorted lt hasymm hnt l
  cases hs : sortBy lt l with
  | nil => rw [hs] at h; simp at h
  | cons a as =>
      rw [hs] at h hsorted
      simp only [List.head?_cons, Option.some.injEq] at h
      rw [List.pairwise_cons] at hsorted
      constructor
      · exact (mem_sortBy lt l m).mp (by rw [hs, ← h]; exact List.mem_cons_self a as)
      · intro x hx
        have hx' : x ∈ a :: as := by rw [← hs]; exact (mem_sortBy lt l x).mpr hx
        rcases List.mem_cons.mp hx' with hx' | hx'
        · rw [hx', ← h]; exact hirr a
        · rw [← h]; exact hsorted.1 x hx'

theorem filter_insertBy_pos {α : Type} (lt : α → α → Bool) (p : α → Bool) (r : α)
    (hpr : p r = true) (hlt : ∀ x, lt x r = true → p x = false) (t : List α) :
    (insertBy lt r t).filter p = r :: t.filter p := by
  induction t with
  | nil => simp [insertBy, hpr]
  | cons x xs ih =>
      simp only [insertBy]
      cases h : lt x r with
      | true =>
          rw [if_pos rfl]
          have hpx := hlt x h
          simp [List.filter_cons, hpx, ih]
      | false =>
          rw [if_neg (by simp)]
          simp [List.filter_cons, hpr]

theorem filter_insertBy_neg {α : Type} (lt : α → α → Bool) (p : α → Bool) (r : α)
    (hpr : p r = false) (t : List α) :
    (insertBy lt r t).filter p = t.filter p := by
  induction t with
  | nil => simp [insertBy, hpr]
  | cons x xs ih =>
      simp only [insertBy]
      cases h : lt x r with
      | true =>
          rw [if_pos rfl]
          simp [List.filter_cons, ih]
      | false =>
          rw [if_neg (by simp)]
          simp [List.filter_cons, hpr]

/-- Stability of `sortBy` with respect to a predicate selecting mutually
incomparable elements: the selected subsequence is untouched by sorting.
For a sort keyed on `(zone, timestamp)` and the predicate "has key `k`",
this says rows with a common key keep their original relative order. -/

theorem filter_sortBy {α : Type} (lt : α → α → Bool) (p : α → Bool)
    (hp : ∀ a b, p a = true → p b = true → lt a b = false) (l : List α) :
    (sortBy lt l).filter p = l.filter p := by
  induction l with
  | nil => simp [sortBy]
  | cons x xs ih =>
      simp only [sortBy]
      cases hx : p x with
      | true =>
          have hside : ∀ y, lt y x = true → p y = false := by
            intro y hy
            cases hpy : p y with
            | true => exact absurd hy (by rw [hp y x hpy hx]; simp)
            | false => rfl
          rw [filter_insertBy_pos lt p x hx hside, ih, List.filter_cons, hx]
          simp
      | false =>
          rw [filter_insertBy_neg lt p x hx, ih, List.filter_cons, hx]
          simp

theorem dropDupKeepLast_sublist {α κ : Type} [DecidableEq κ] (kf : α → κ) (l : List α) :
    (dropDupKeepLast kf l).Sublist l := by
  induction l with
  | nil => simp [dropDupKeepLast]
  | cons r rs ih =>
      simp only [dropDupKeepLast]
      by_cases h : rs.any (fun x => decide (kf x = kf r)) = true
      · rw [if_pos h]; exact ih.cons r
      · rw [if_neg h]; exact ih.cons₂ r

theorem mem_of_mem_dropDupKeepLast {α κ : Type} [DecidableEq κ] (kf : α → κ)
    (l : List α) (a : α) (h : a ∈ dropDupKeepLast kf l) : a ∈ l :=
  (dropDupKeepLast_sublist kf l).subset h

/-- The deduplicated list has pairwise distinct keys. -/

theorem dropDupKeepLast_nodupkeys {α κ : Type} [DecidableEq κ] (kf : α → κ) (l : List α) :
    (dropDupKeepLast kf l).Pairwise (fun a b => kf a ≠ kf b) := by
  induction l with
  | nil => simp [dropDupKeepLast]
  | cons r rs ih =>
      simp only [dropDupKeepLast]
      by_cases h : rs.any (fun x => decide (kf x = kf r)) = true
      · rw [if_pos h]; exact ih
      · rw [if_neg h, List.pairwise_cons]
        refine ⟨?_, ih⟩
        intro y hy hcon
        have hy' : y ∈ rs := mem_of_mem_dropDupKeepLast kf rs y hy
        exact h (List.any_eq_true.mpr ⟨y, hy', by simp [hcon]⟩)

theorem lastOf_cons_ne {α : Type} (r : α) (t : List α) (h : t ≠ []) :
    lastOf (r :: t) = lastOf t := by
  cases t with
  | nil => exact absurd rfl h
  | cons b bt => rfl

theorem lastOf_mem {α : Type} (l : List α) (a : α) (h : lastOf l = some a) :
    a ∈ l := by
  induction l with
  | nil => simp [lastOf] at h
  | cons x xs ih =>
      cases xs with
      | nil =>
          simp only [lastOf, Option.some.injEq] at h
          rw [h]; exact List.mem_singleton_self a
      | cons y ys =>
          rw [lastOf_cons_ne x (y :: ys) (by simp)] at h
          exact List.mem_cons.mpr (Or.inr (ih h))

theorem lastOf_append {α : Type} (xs ys : List α) (h : ys ≠ []) :
    lastOf (xs ++ ys) = lastOf ys := by
  induction xs with
  | nil => simp
  | cons x xt ih =>
      have hne : xt ++ ys ≠ [] := by
        intro hcon
        exact h (List.append_eq_nil.mp hcon).2
      rw [List.cons_append, lastOf_cons_ne x (xt ++ ys) hne, ih]

theorem lastOf_all_eq {α : Type} (a : α) (ys : List α)
    (h : ∀ y ∈ ys, y = a) : lastOf (a :: ys) = some a := by
  induction ys with
  | nil => rfl
  | cons y yt ih =>
      have hy : y = a := h y (List.mem_cons_self y yt)
      rw [lastOf_cons_ne a (y :: yt) (by simp), hy]
      exact ih (fun z hz => h z (List.mem_cons.mpr (Or.inr hz)))

/-- Keep-last characterisation: among the rows carrying a fixed key `k`,
deduplication keeps exactly the last one (in list order). -/

theorem filter_dropDupKeepLast {α κ : Type} [DecidableEq κ] (kf : α → κ)
    (k : κ) (l : List α) :
    (dropDupKeepLast kf l).filter (fun x => decide (kf x = k)) =
      (lastOf (l.filter (fun x => decide (kf x = k)))).toList := by
  induction l with
  | nil => simp [dropDupKeepLast, lastOf]
  | cons r rs ih =>
      simp only [dropDupKeepLast]
      by_cases hk : kf r = k
      · have hd : (decide (kf r = k)) = true := by simp [hk]
        by_cases h : rs.any (fun x => decide (kf x = kf r)) = true
        · rw [if_pos h, ih, List.filter_cons, hd]
          simp only [if_true]
          rcases List.any_eq_true.mp h with ⟨y, hy, hyk⟩
          have hyk' : kf y = kf r := of_decide_eq_true hyk
          have hne : rs.filter (fun x => decide (kf x = k)) ≠ [] := by
            intro hcon
            have hmem : y ∈ rs.filter (fun x => decide (kf x = k)) :=
              List.mem_filter.mpr ⟨hy, by simp [hyk', hk]⟩
            rw [hcon] at hmem
            exact List.not_mem_nil y hmem
          rw [lastOf_cons_ne r _ hne]
        · rw [if_neg h]
          have hempty : rs.filter (fun x => decide (kf x = k)) = [] := by
            rw [List.filter_eq_nil_iff]
            intro y hy hcon
            have hyr : kf y = kf r := by rw [of_decide_eq_true hcon, hk]
            exact h (List.any_eq_true.mpr ⟨y, hy, by simp [hyr]⟩)
          rw [List.filter_cons, List.filter_cons, hd]
          simp only [if_true]
          rw [ih, hempty]
          simp [lastOf, Option.toList]
      · have hd : (decide (kf r = k)) = false := by simp [hk]
        have hfilter : ∀ t : List α,
            (r :: t).filter (fun x => decide (kf x = k)) =
              t.filter (fun x => decide (kf x = k)) := by
          intro t
          rw [List.filter_cons, hd]
          simp
        by_cases h : rs.any (fun x => decide (kf x = kf r)) = true
        · rw [if_pos h, ih, hfilter]
        · rw [if_neg h, hfilter, ih, hfilter]

/-- Membership in the deduplicated list: `a` survives iff it is the last row
of the original list bearing its key. -/

theorem mem_dropDupKeepLast {α κ : Type} [DecidableEq κ] (kf : α → κ)
    (l : List α) (a : α) :
    a ∈ dropDupKeepLast kf l ↔
      lastOf (l.filter (fun x => decide (kf x = kf a))) = some a := by
  constructor
  · intro h
    have ha : a ∈ (dropDupKeepLast kf l).filter (fun x => decide (kf x = kf a)) :=
      List.mem_filter.mpr ⟨h, by simp⟩
    rw [filter_dropDupKeepLast kf (kf a) l] at ha
    cases hg : lastOf (l.filter (fun x => decide (kf x = kf a))) with
    | none => rw [hg] at ha; simp [Option.toList] at ha
    | some b =>
        rw [hg] at ha
        simp only [Option.toList, List.mem_singleton] at ha
        rw [ha]
  · intro h
    have hmem : a ∈ (lastOf (l.filter (fun x => decide (kf x = kf a)))).toList := by
      rw [h]; simp [Option.toList]
    rw [← filter_dropDupKeepLast kf (kf a) l] at hmem
    exact (List.mem_filter.mp hmem).1

/-- Two lists that are strictly sorted under an irreflexive asymmetric
relation and have the same members are equal. -/

theorem pairwise_strict_ext {α : Type} (lt : α → α → Bool)
    (hirr : ∀ a, lt a a = false)
    (hasymm : ∀ a b, lt a b = true → lt b a = false)
    (l₁ l₂ : List α)
    (h₁ : l₁.Pairwise (fun a b => lt a b = true))
    (h₂ : l₂.Pairwise (fun a b => lt a b = true))
    (hmem : ∀ x, x ∈ l₁ ↔ x ∈ l₂) : l₁ = l₂ := by
  induction l₁ generalizing l₂ with
  | nil =>
      cases l₂ with
      | nil => rfl
      | cons b bs => exact absurd ((hmem b).mpr (List.mem_cons_self b bs)) (List.not_mem_nil b)
  | cons a as ih =>
      cases l₂ with
      | nil => exact absurd ((hmem a).mp (List.mem_cons_self a as)) (List.not_mem_nil a)
      | cons b bs =>
          rw [List.pairwise_cons] at h₁ h₂
          have hab : a = b := by
            rcases List.mem_cons.mp ((hmem a).mp (List.mem_cons_self a as)) with h | h
            · exact h
            · rcases List.mem_cons.mp ((hmem b).mpr (List.mem_cons_self b bs)) with h' | h'
              · have hlt := h₂.1 a h
                rw [h'] at hlt
                exact absurd hlt (by simp [hirr a])
              · have hlt := h₂.1 a h
                exact absurd hlt (by simp [hasymm a b (h₁.1 b h')])
          rw [hab]
          congr 1
          apply ih bs h₁.2 h₂.2
          intro x
          constructor
          · intro hx
            rcases List.mem_cons.mp ((hmem x).mp (List.mem_cons.mpr (Or.inr hx))) with h | h
            · have hlt := h₁.1 x hx
              rw [h, ← hab] at hlt
              exact absurd hlt (by simp [hirr a])
            · exact h
          · intro hx
            rcases List.mem_cons.mp ((hmem x).mpr (List.mem_cons.mpr (Or.inr hx))) with h | h
            · have hlt := h₂.1 x hx
              rw [h, hab] at hlt
              exact absurd hlt (by simp [hirr b])
            · exact h

/-- Combine two `Pairwise` facts on the same list. -/

theorem pairwise_and {α : Type} {R S : α → α → Prop} {l : List α}
    (hR : l.Pairwise R) (hS : l.Pairwise S) :
    l.Pairwise (fun a b => R a b ∧ S a b) := by
  induction l with
  | nil => simp
  | cons x xs ih =>
      rw [List.pairwise_cons] at hR hS ⊢
      exact ⟨fun y hy => ⟨hR.1 y hy, hS.1 y hy⟩, ih hR.2 hS.2⟩

theorem charListLt_irrefl (l : List Char) : charListLt l l = false := by
  induction l with
  | nil => rfl
  | cons a as ih => simp [charListLt, ih]

theorem charListLt_asymm (l₁ l₂ : List Char) (h : charListLt l₁ l₂ = true) :
    charListLt l₂ l₁ = false := by
  induction l₁ generalizing l₂ with
  | nil =>
      cases l₂ with
      | nil => exact absurd h (by simp [charListLt])
      | cons b bs => simp [charListLt]
  | cons a as ih =>
      cases l₂ with
      | nil => simp [charListLt] at h
      | cons b bs =>
          simp only [charListLt] at h ⊢
          by_cases hab : a < b
          · rw [if_neg (lt_asymm hab), if_pos hab]
          · rw [if_neg hab] at h
            by_cases hba : b < a
            · rw [if_pos hba] at h; exact absurd h (by simp)
            · rw [if_neg hba] at h
              rw [if_neg hba, if_neg hab]
              exact ih bs h

theorem charListLt_trans (l₁ l₂ l₃ : List Char)
    (h₁ : charListLt l₁ l₂ = true) (h₂ : charListLt l₂ l₃ = true) :
    charListLt l₁ l₃ = true := by
  induction l₁ generalizing l₂ l₃ with
  | nil =>
      cases l₃ with
      | nil =>
          cases l₂ with
          | nil => exact h₁
          | cons b bs => simp [charListLt] at h₂
      | cons c cs => simp [charListLt]
  | cons a as ih =>
      cases l₂ with
      | nil => simp [charListLt] at h₁
      | cons b bs =>
          cases l₃ with
          | nil => simp [charListLt] at h₂
          | cons c cs =>
              simp only [charListLt] at h₁ h₂ ⊢
              by_cases hab : a < b
              · by_cases hbc : b < c
                · rw [if_pos (lt_trans hab hbc)]
                · rw [if_neg hbc] at h₂
                  by_cases hcb : c < b
                  · rw [if_pos hcb] at h₂; exact absurd h₂ (by simp)
                  · have hbc' : b = c := le_antisymm (le_of_not_lt hcb) (le_of_not_lt hbc)
                    rw [← hbc', if_pos hab]
              · rw [if_neg hab] at h₁
                by_cases hba : b < a
                · rw [if_pos hba] at h₁; exact absurd h₁ (by simp)
                · rw [if_neg hba] at h₁
                  have hab' : a = b := le_antisymm (le_of_not_lt hba) (le_of_not_lt hab)
                  by_cases hbc : b < c
                  · rw [hab', if_pos hbc]
                  · rw [if_neg hbc] at h₂
                    by_cases hcb : c < b
                    · rw [if_pos hcb] at h₂; exact absurd h₂ (by simp)
                    · rw [if_neg hcb] at h₂
                      rw [hab', if_neg hbc, if_neg hcb]
                      exact ih bs cs h₁ h₂

theorem charListLt_connex (l₁ l₂ : List Char)
    (h₁ : charListLt l₁ l₂ = false) (h₂ : charListLt l₂ l₁ = false) : l₁ = l₂ := by
  induction l₁ generalizing l₂ with
  | nil =>
      cases l₂ with
      | nil => rfl
      | cons b bs => simp [charListLt] at h₁
  | cons a as ih =>
      cases l₂ with
      | nil => simp [charListLt] at h₂
      | cons b bs =>
          simp only [charListLt] at h₁ h₂
          by_cases hab : a < b
          · rw [if_pos hab] at h₁; exact absurd h₁ (by simp)
          · by_cases hba : b < a
            · rw [if_pos hba] at h₂; exact absurd h₂ (by simp)
            · rw [if_neg hab, if_neg hba] at h₁
              rw [if_neg hba, if_neg hab] at h₂
              have hab' : a = b := le_antisymm (le_of_not_lt hba) (le_of_not_lt hab)
              rw [hab', ih bs h₁ h₂]

theorem strLt_irrefl (s : String) : strLt s s = false := charListLt_irrefl s.data

theorem strLt_asymm (a b : String) (h : strLt a b = true) : strLt b a = false :=
  charListLt_asymm a.data b.data h

theorem strLt_trans (a b c : String) (h₁ : strLt a b = true) (h₂ : strLt b c = true) :
    strLt a c = true := charListLt_trans a.data b.data c.data h₁ h₂

theorem strLt_connex (a b : String) (h₁ : strLt a b = false) (h₂ : strLt b a = false) :
    a = b := by
  have hd : a.data = b.data := charListLt_connex a.data b.data h₁ h₂
  cases a with
  | mk da => cases b with
    | mk db => exact congrArg String.mk hd

theorem keyLTb_irrefl (a : String × Int) : keyLTb a a = false := by
  simp [keyLTb, strLt_irrefl]

theorem keyLTb_asymm (a b : String × Int) (h : keyLTb a b = true) :
    keyLTb b a = false := by
  cases hx : keyLTb b a
  · rfl
  · exfalso
    simp only [keyLTb, Bool.or_eq_true, Bool.and_eq_true, beq_iff_eq,
      decide_eq_true_eq] at h hx
    rcases h with h | ⟨he, hl⟩ <;> rcases hx with hx | ⟨he', hl'⟩
    · have hf := strLt_asymm a.1 b.1 h
      exact absurd hx (by simp [hf])
    · rw [he'] at h
      rw [strLt_irrefl] at h
      exact absurd h (by simp)
    · rw [← he] at hx
      rw [strLt_irrefl] at hx
      exact absurd hx (by simp)
    · omega

theorem keyLTb_negtrans (a b c : String × Int)
    (h₁ : keyLTb a b = false) (h₂ : keyLTb b c = false) : keyLTb a c = false := by
  simp only [keyLTb, Bool.or_eq_false_iff, Bool.and_eq_false_iff, beq_eq_false_iff_ne,
    ne_eq, decide_eq_false_iff_not, not_lt] at h₁ h₂ ⊢
  by_cases hba : strLt b.1 a.1 = true
  · -- b.1 < a.1 strictly
    by_cases hcb : strLt c.1 b.1 = true
    · have hca := strLt_trans c.1 b.1 a.1 hcb hba
      refine ⟨?_, ?_⟩
      · cases hac : strLt a.1 c.1
        · rfl
        · rw [strLt_asymm c.1 a.1 hca] at hac; exact absurd hac (by simp)
      · left; intro hcon
        rw [hcon, strLt_irrefl] at hca; exact absurd hca (by simp)
    · have hcb' : strLt c.1 b.1 = false := by
        cases hx : strLt c.1 b.1
        · rfl
        · exact absurd hx hcb
      have hbc' : strLt b.1 c.1 = false := h₂.1
      have hbceq : b.1 = c.1 := strLt_connex b.1 c.1 hbc' hcb'
      refine ⟨?_, ?_⟩
      · rw [← hbceq]
        cases hac : strLt a.1 b.1
        · rfl
        · rw [strLt_asymm b.1 a.1 hba] at hac; exact absurd hac (by simp)
      · left; intro hcon
        rw [hcon, ← hbceq, strLt_irrefl] at hba; exact absurd hba (by simp)
  · have hba' : strLt b.1 a.1 = false := by
      cases hx : strLt b.1 a.1
      · rfl
      · exact absurd hx hba
    have hab' : strLt a.1 b.1 = false := h₁.1
    have habeq : a.1 = b.1 := strLt_connex a.1 b.1 hab' hba'
    rcases h₁.2 with h₁' | h₁'
    · exact absurd habeq h₁'
    · by_cases hcb : strLt c.1 b.1 = true
      · refine ⟨?_, ?_⟩
        · rw [habeq]
          cases hx : strLt b.1 c.1
          · rfl
          · rw [strLt_asymm c.1 b.1 hcb] at hx; exact absurd hx (by simp)
        · left; intro hcon
          rw [habeq] at hcon
          rw [hcon, strLt_irrefl] at hcb; exact absurd hcb (by simp)
      · have hcb' : strLt c.1 b.1 = false := by
          cases hx : strLt c.1 b.1
          · rfl
          · exact absurd hx hcb
        have hbceq : b.1 = c.1 := strLt_connex b.1 c.1 h₂.1 hcb'
        rcases h₂.2 with h₂' | h₂'
        · exact absurd hbceq h₂'
        · refine ⟨?_, ?_⟩
          · rw [habeq, hbceq, strLt_irrefl]
          · right; omega

/-- Rows whose keys are equal never strictly precede one another. -/

theorem keyLTb_of_eq (a b : String × Int) (h : a = b) : keyLTb a b = false := by
  rw [h]; exact keyLTb_irrefl b

/-- If neither key strictly precedes the other, the keys are equal. -/

theorem keyLTb_connex (a b : String × Int)
    (h₁ : keyLTb a b = false) (h₂ : keyLTb b a = false) : a = b := by
  simp only [keyLTb, Bool.or_eq_false_iff, Bool.and_eq_false_iff, beq_eq_false_iff_ne,
    ne_eq, decide_eq_false_iff_not, not_lt] at h₁ h₂
  have heq : a.1 = b.1 := strLt_connex a.1 b.1 h₁.1 h₂.1
  rcases h₁.2 with h | h
  · exact absurd heq h
  · rcases h₂.2 with h' | h'
    · exact absurd heq.symm h'
    · have : a.2 = b.2 := le_antisymm h' h
      exact Prod.ext heq this

/-! ## Reconciler lemmas -/

theorem rowLT_irrefl (a : StorageRow) : rowLT a a = false := keyLTb_irrefl (keyOf a)

theorem rowLT_asymm (a b : StorageRow) (h : rowLT a b = true) : rowLT b a = false :=
  keyLTb_asymm (keyOf a) (keyOf b) h

theorem rowLT_negtrans (a b c : StorageRow) (h₁ : rowLT a b = false)
    (h₂ : rowLT b c = false) : rowLT a c = false :=
  keyLTb_negtrans (keyOf a) (keyOf b) (keyOf c) h₁ h₂

theorem rowLT_of_eq_key (a b : StorageRow) (h : keyOf a = keyOf b) :
    rowLT a b = false := by
  unfold rowLT
  rw [h]
  exact keyLTb_irrefl (keyOf b)

theorem ne_key_of_rowLT (a b : StorageRow) (h : rowLT a b = true) :
    keyOf a ≠ keyOf b := by
  intro he
  rw [rowLT_of_eq_key a b he] at h
  exact absurd h (by simp)

theorem rowLT_true_of_le_ne (a b : StorageRow) (hle : rowLT b a = false)
    (hne : keyOf a ≠ keyOf b) : rowLT a b = true := by
  cases hx : rowLT a b
  · exact absurd (keyLTb_connex (keyOf a) (keyOf b) hx hle) hne
  · rfl

/-- The reconciler output is the keep-last deduplication of the stable sort
of the `dropna`-filtered concatenation; spelling the `match` out once. -/

theorem update_eq (hist : Option (List StorageRow)) (new_df : List StorageRow) :
    update_history_parquet_multi hist new_df =
      dropDupKeepLast keyOf (sortBy rowLT
        (((match hist with | some h => h ++ new_df | none => new_df)).filter validRow)) := rfl

theorem update_valid (hist : Option (List StorageRow)) (new_df : List StorageRow) :
    ∀ r ∈ update_history_parquet_multi hist new_df, validRow r = true := by
  intro r hr
  rw [update_eq] at hr
  have hr' := mem_of_mem_dropDupKeepLast keyOf _ r hr
  rw [mem_sortBy] at hr'
  exact (List.mem_filter.mp hr').2

theorem update_sorted (hist : Option (List StorageRow)) (new_df : List StorageRow) :
    (update_history_parquet_multi hist new_df).Pairwise
      (fun a b => rowLT b a = false) := by
  rw [update_eq]
  exact (sortBy_sorted rowLT rowLT_asymm rowLT_negtrans _).sublist
    (dropDupKeepLast_sublist keyOf _)

theorem update_nodupkeys (hist : Option (List StorageRow)) (new_df : List StorageRow) :
    (update_history_parquet_multi hist new_df).Pairwise
      (fun a b => keyOf a ≠ keyOf b) := by
  rw [update_eq]
  exact dropDupKeepLast_nodupkeys keyOf _

/-- The reconciler output is strictly sorted on the `(zone, timestamp)` key. -/

theorem update_strict (hist : Option (List StorageRow)) (new_df : List StorageRow) :
    (update_history_parquet_multi hist new_df).Pairwise
      (fun a b => rowLT a b = true) := by
  have h := pairwise_and (update_sorted hist new_df) (update_nodupkeys hist new_df)
  exact h.imp (fun hab => rowLT_true_of_le_ne _ _ hab.1 hab.2)

/-- Membership characterisation of the reconciler output: a row survives
iff it is the last valid row of the concatenation that bears its key. -/

theorem mem_update (hist : Option (List StorageRow)) (new_df : List StorageRow)
    (x : StorageRow) :
    x ∈ update_history_parquet_multi hist new_df ↔
      lastOf (((match hist with | some h => h ++ new_df | none => new_df)).filter validRow
        |>.filter (fun r => decide (keyOf r = keyOf x))) = some x := by
  rw [update_eq, mem_dropDupKeepLast]
  rw [filter_sortBy rowLT _ ?_]
  intro a b ha hb
  have hka : keyOf a = keyOf x := of_decide_eq_true ha
  have hkb : keyOf b = keyOf x := of_decide_eq_true hb
  exact rowLT_of_eq_key a b (hka.trans hkb.symm)

/-- In a strictly key-sorted list, restricting to a member's key leaves
exactly that member. -/

theorem filter_key_of_strict (T : List StorageRow)
    (hsorted : T.Pairwise (fun a b => rowLT a b = true))
    (x : StorageRow) (hx : x ∈ T) :
    T.filter (fun r => decide (keyOf r = keyOf x)) = [x] := by
  induction T with
  | nil => exact absurd hx (List.not_mem_nil x)
  | cons a as ih =>
      rw [List.pairwise_cons] at hsorted
      rcases List.mem_cons.mp hx with hx' | hx'
      · subst hx'
        rw [List.filter_cons]
        have hd : (decide (keyOf x = keyOf x)) = true := by simp
        rw [hd]
        simp only [if_true]
        congr 1
        rw [List.filter_eq_nil_iff]
        intro y hy hcon
        have hky : keyOf y = keyOf x := of_decide_eq_true hcon
        exact ne_key_of_rowLT x y (hsorted.1 y hy) hky.symm
      · rw [List.filter_cons]
        have hne := ne_key_of_rowLT a x (hsorted.1 x hx')
        have hd : (decide (keyOf a = keyOf x)) = false := by
          simp only [decide_eq_false_iff_not]
          exact hne
        rw [hd]
        simp only [Bool.false_eq_true, if_false]
        exact ih hsorted.2 hx'

/-- Core idempotence lemma: feeding the reconciler any batch of exact
copies of rows of an already-reconciled table returns the table
unchanged. -/

theorem update_subset_eq (T S : List StorageRow)
    (hvalid : ∀ r ∈ T, validRow r = true)
    (hsorted : T.Pairwise (fun a b => rowLT a b = true))
    (hS : ∀ r ∈ S, r ∈ T) :
    update_history_parquet_multi (some T) S = T := by
  have hvalid' : (T ++ S).filter validRow = T ++ S := by
    rw [List.filter_eq_self]
    intro x hx
    rcases List.mem_append.mp hx with hx | hx
    · exact hvalid x hx
    · exact hvalid x (hS x hx)
  apply pairwise_strict_ext rowLT rowLT_irrefl rowLT_asymm _ _
    (update_strict (some T) S) hsorted
  intro x
  rw [mem_update (some T) S x]
  simp only
  rw [hvalid', List.filter_append]
  constructor
  · intro h
    have hx := lastOf_mem _ x h
    rcases List.mem_append.mp hx with hx | hx
    · exact (List.mem_filter.mp hx).1
    · exact hS x (List.mem_filter.mp hx).1
  · intro hx
    rw [filter_key_of_strict T hsorted x hx]
    have hall : ∀ y ∈ S.filter (fun r => decide (keyOf r = keyOf x)), y = x := by
      intro y hy
      have h₁ := (List.mem_filter.mp hy).1
      have h₂ := (List.mem_filter.mp hy).2
      have hyT : y ∈ T := hS y h₁
      have : y ∈ T.filter (fun r => decide (keyOf r = keyOf x)) :=
        List.mem_filter.mpr ⟨hyT, h₂⟩
      rw [filter_key_of_strict T hsorted x hx] at this
      exact List.mem_singleton.mp this
    rw [List.singleton_append]
    exact lastOf_all_eq x _ hall

/-! ## Claim C1 — revision absorption -/

/-- Claim C1 (confirmed): for an already-reconciled storage table `T`
(valid rows, strictly sorted on the `(zone, timestamp)` key) and an
incoming batch consisting of a row `r'` whose key is already present in
`T`, the reconciler returns `T` with exactly that key's row replaced by
the incoming row (so the key's value equals the new value) and every
other row unchanged. -/

theorem revision_absorption (T : List StorageRow) (r' : StorageRow)
    (hvalid : ∀ r ∈ T, validRow r = true)
    (hsorted : T.Pairwise (fun a b => rowLT a b = true))
    (hr' : validRow r' = true)
    (hk : ∃ t ∈ T, keyOf t = keyOf r') :
    update_history_parquet_multi (some T) [r'] =
      T.map (fun x => if keyOf x = keyOf r' then r' else x) := by
  have hkeymap : ∀ x : StorageRow,
      keyOf (if keyOf x = keyOf r' then r' else x) = keyOf x := by
    intro x
    by_cases h : keyOf x = keyOf r'
    · rw [if_pos h]; exact h.symm
    · rw [if_neg h]
  have hvalid' : (T ++ [r']).filter validRow = T ++ [r'] := by
    rw [List.filter_eq_self]
    intro x hx
    rcases List.mem_append.mp hx with hx | hx
    · exact hvalid x hx
    · rw [List.mem_singleton.mp hx]; exact hr'
  apply pairwise_strict_ext rowLT rowLT_irrefl rowLT_asymm _ _
    (update_strict (some T) [r'])
  · rw [List.pairwise_map]
    refine hsorted.imp ?_
    intro a b hab
    show keyLTb (keyOf (if keyOf a = keyOf r' then r' else a))
      (keyOf (if keyOf b = keyOf r' then r' else b)) = true
    rw [hkeymap a, hkeymap b]
    exact hab
  · intro x
    rw [mem_update (some T) [r'] x]
    simp only
    rw [hvalid', List.filter_append]
    by_cases hxk : keyOf x = keyOf r'
    · have hfr : ([r'].filter (fun r => decide (keyOf r = keyOf x))) = [r'] := by
        simp [hxk.symm]
      rw [hfr, lastOf_append _ [r'] (by simp)]
      constructor
      · intro h
        have hx : x = r' := by
          have := Option.some.inj h
          exact this.symm
        rcases hk with ⟨t, ht, htk⟩
        refine List.mem_map.mpr ⟨t, ht, ?_⟩
        rw [if_pos htk, hx]
      · intro h
        rcases List.mem_map.mp h with ⟨t, ht, htx⟩
        by_cases htk : keyOf t = keyOf r'
        · rw [if_pos htk] at htx
          rw [htx]
          exact rfl
        · rw [if_neg htk] at htx
          rw [← htx] at hxk
          exact absurd hxk htk
    · have hfr : ([r'].filter (fun r => decide (keyOf r = keyOf x))) = [] := by
        simp
        intro hcon
        exact absurd hcon.symm hxk
      rw [hfr, List.append_nil]
      constructor
      · intro h
        have hx : x ∈ T := (List.mem_filter.mp (lastOf_mem _ x h)).1
        refine List.mem_map.mpr ⟨x, hx, ?_⟩
        rw [if_neg hxk]
      · intro h
        rcases List.mem_map.mp h with ⟨t, ht, htx⟩
        by_cases htk : keyOf t = keyOf r'
        · rw [if_pos htk] at htx
          rw [← htx] at hxk
          exact absurd rfl hxk
        · rw [if_neg htk] at htx
          rw [← htx]
          rw [filter_key_of_strict T hsorted t ht]
          rfl

/-! ## Claim C2 — output invariant -/

/-- Claim C2 (confirmed): for every pair of inputs (existing table or
absent, incoming batch) the reconciler output has pairwise distinct
`(timestamp, zone)` keys and is sorted ascending by `(zone, timestamp)`. -/

theorem reconcile_output_invariant (hist : Option (List StorageRow))
    (new_df : List StorageRow) :
    ((update_history_parquet_multi hist new_df).Pairwise
        (fun a b => keyOf a ≠ keyOf b)) ∧
      ((update_history_parquet_multi hist new_df).Pairwise
        (fun a b => keyLEb (keyOf a) (keyOf b) = true)) := by
  refine ⟨update_nodupkeys hist new_df, ?_⟩
  refine (update_sorted hist new_df).imp ?_
  intro a b h
  show (!(keyLTb (keyOf b) (keyOf a))) = true
  rw [show keyLTb (keyOf b) (keyOf a) = rowLT b a from rfl, h]
  rfl

/-! ## Claim C3 — idempotence -/

/-- Claim C3 (confirmed): for an already-reconciled table `T`, feeding the
reconciler an empty batch, `T` itself, or any batch of unchanged rows of
`T` returns `T` unchanged. -/

theorem reconcile_idempotent (T : List StorageRow)
    (hvalid : ∀ r ∈ T, validRow r = true)
    (hsorted : T.Pairwise (fun a b => rowLT a b = true)) :
    update_history_parquet_multi (some T) [] = T ∧
      update_history_parquet_multi (some T) T = T ∧
      ∀ S : List StorageRow, (∀ r ∈ S, r ∈ T) →
        update_history_parquet_multi (some T) S = T := by
  refine ⟨?_, ?_, ?_⟩
  · exact update_subset_eq T [] hvalid hsorted (by intro r hr; exact absurd hr (List.not_mem_nil r))
  · exact update_subset_eq T T hvalid hsorted (fun r hr => hr)
  · intro S hS
    exact update_subset_eq T S hvalid hsorted hS

/-- Witness for `revision_absorption` at a concrete table and revision row. -/

theorem revision_absorption_witness :
    update_history_parquet_multi (some sampleT) [sampleRev] =
      sampleT.map (fun x => if keyOf x = keyOf sampleRev then sampleRev else x) :=
  revision_absorption sampleT sampleRev (by decide) (by decide) (by decide) (by decide)

/-- Witness for `reconcile_idempotent` at a concrete table and sub-batch. -/

theorem reconcile_idempotent_witness :
    update_history_parquet_multi (some sampleT) [] = sampleT ∧
      update_history_parquet_multi (some sampleT) sampleT = sampleT ∧
      update_history_parquet_multi (some sampleT)
        [StorageRow.mk (some ⟨3600, "UTC"⟩) (some "SE2") (some 300)] = sampleT := by
  have h := reconcile_idempotent sampleT (by decide) (by decide)
  exact ⟨h.1, h.2.1, h.2.2 _ (by decide)⟩

/-! ## Claim C4 — empty inputs (corrected)

`reconcile(absent, ∅)` does return an empty table.  But
`compute_yearly_peak_loads` on an empty display table builds
`pd.DataFrame([])` — a frame with no columns at all — and then calls
`.sort_values("Year")` on it, which raises `KeyError: 'Year'`; it does
not return an empty sequence. -/

/-- Counterexample to claim C4: on an empty display table the yearly peak
extractor raises (modelled as `Except.error`) instead of returning an
empty sequence. -/

theorem yearly_peaks_empty_raises :
    compute_yearly_peak_loads ([] : List DRow) = Except.error "KeyError: Year" := rfl

/-- Claim C4 as amended: the reconciler with no existing table and an
empty batch returns an empty table without error, while the yearly peak
extractor on an empty table fails with a `KeyError` rather than
returning an empty sequence. -/

theorem empty_inputs_amended :
    update_history_parquet_multi none [] = [] ∧
      compute_yearly_peak_loads ([] : List DRow) = Except.error "KeyError: Year" :=
  ⟨rfl, rfl⟩

/-! ## Claim C6 — time-range contract (corrected)

`get_time_range` floors the clock reading to the hour and subtracts
`days_back` days, and `start < end` holds exactly when `days_back > 0`.
But the function performs no validation at all: there is no
`InvalidWindowError` anywhere in the code, and a negative `days_back`
silently yields an inverted window with `start > end`. -/

/-- Counterexample to claim C6: at `days_back = -1` the function returns
an inverted window (start one day after end) instead of failing. -/

theorem get_time_range_negative_no_error :
    get_time_range (-1) 0 = (86400, 0) ∧
      (get_time_range (-1) 0).2 < (get_time_range (-1) 0).1 := by decide

/-- Claim C6 as amended: `end` is the reference instant floored to the
start of the hour, `start = end - days_back` days, and `start < end` iff
`days_back > 0`; for negative `days_back` the function returns a window
with `start > end` instead of raising.  The spec's concrete example
(7 days back from 2024-03-10T12:00Z) is included. -/

theorem time_range_window_amended (days_back now : Int) :
    (get_time_range days_back now).2 % 3600 = 0 ∧
      (get_time_range days_back now).2 ≤ now ∧
      now < (get_time_range days_back now).2 + 3600 ∧
      (get_time_range days_back now).1 =
        (get_time_range days_back now).2 - days_back * 86400 ∧
      ((get_time_range days_back now).1 < (get_time_range days_back now).2 ↔
        0 < days_back) ∧
      ((get_time_range days_back now).2 < (get_time_range days_back now).1 ↔
        days_back < 0) ∧
      get_time_range 7 1710072000 = (1709467200, 1710072000) := by
  refine ⟨?_, ?_, ?_, ?_, ?_, ?_, by decide⟩ <;>
    simp only [get_time_range, floorHour] <;> omega

/-! ## Claim C7 — schema-conversion round trip -/

/-- Claim C7 (confirmed): a storage row with a UTC-tagged date and a
present zone label, converted to display schema in any timezone `Z` and
back to storage schema with the matching zone label, is returned
unchanged. -/

theorem schema_round_trip (r : StorageRow) (Z zone_label : String) (d : TS)
    (hdate : r.date = some d) (hutc : d.tz = "UTC")
    (hzone : r.zone = some zone_label) :
    to_storage_df (to_display_df [r] Z) zone_label = [r] := by
  cases r with
  | mk rdate rzone rload =>
      simp only at hdate hzone
      cases d with
      | mk di dz =>
          simp only [TS.mk.injEq] at hutc
          rw [hdate, hzone, hutc]
          simp [to_display_df, to_storage_df, sortBy, insertBy, tz_convert]

/-- Witness for `schema_round_trip` at a concrete storage row. -/

theorem schema_round_trip_witness :
    to_storage_df (to_display_df
      [StorageRow.mk (some ⟨7200, "UTC"⟩) (some "SE3") (some 421)]
      "Europe/Stockholm") "SE3" =
      [StorageRow.mk (some ⟨7200, "UTC"⟩) (some "SE3") (some 421)] :=
  schema_round_trip _ "Europe/Stockholm" "SE3" ⟨7200, "UTC"⟩ rfl rfl rfl

/-! ## Claim C8 — normaliser timezone policy -/

/-- Claim C8 (confirmed): every row of a successful `_to_tidy` output
carries a UTC-tagged timestamp whose instant is drawn unchanged from the
raw index — a naive index is tagged as UTC as-is (never reinterpreted as
local time), and an aware index is converted to UTC, which also leaves
the instant untouched. -/

theorem normalize_timezone_policy (df : RawFrame) (vname : String)
    (out : List TidyRow) (h : «_to_tidy» df vname = Except.ok out) :
    ∀ r ∈ out, ∃ i : Int, r.date = some ⟨i, "UTC"⟩ ∧ (some i) ∈ df.indexVals := by
  intro r hr
  cases hres : resolveValue df vname with
  | error e =>
      rw [«_to_tidy», hres] at h
      exact absurd h (by simp [Except.map])
  | ok cells =>
      rw [«_to_tidy», hres] at h
      simp only [Except.map, Except.ok.injEq] at h
      rw [← h] at hr
      rw [mem_sortBy] at hr
      have hr₁ := (List.mem_filter.mp hr).1
      rcases List.mem_map.mp hr₁ with ⟨p, hp, hpr⟩
      obtain ⟨p₁, p₂⟩ := p
      have hp₁ := (List.mem_filter.mp hp).1
      have hp₂ := (List.mem_filter.mp hp).2
      have hp₁' : p₁ ∈ df.indexVals.map (fun o => o.map (fun i => (⟨i, "UTC"⟩ : TS))) :=
        (List.of_mem_zip hp₁).1
      rcases List.mem_map.mp hp₁' with ⟨o, ho, hop⟩
      have hsome : p₁.isSome = true := by
        simp only [Bool.and_eq_true] at hp₂
        exact hp₂.1
      cases o with
      | none =>
          rw [← hop] at hsome
          simp [Option.map] at hsome
      | some i =>
          refine ⟨i, ?_, ?_⟩
          · rw [← hpr]
            simp only
            rw [← hop]
            rfl
          · exact ho

/-! ## Claim C9 — value-column resolution -/

/-- The resolver fails exactly when no column is named `value_name`, no
column is numeric, and every column name collides with the index name. -/

theorem resolveValue_error_iff (df : RawFrame) (vname : String) (e : String) :
    resolveValue df vname = Except.error e ↔
      (df.cols.find? (fun c => c.name == vname) = none ∧
        df.cols.filter (fun c => c.numeric) = [] ∧
        df.cols.filter (fun c => c.name ≠ df.indexName.getD "index") = [] ∧
        e = "No value column in response.") := by
  constructor
  · intro h
    cases hfind : df.cols.find? (fun c => c.name == vname) with
    | some c => rw [resolveValue, hfind] at h; exact absurd h (by simp)
    | none =>
        rw [resolveValue, hfind] at h
        cases hnum : df.cols.filter (fun c => c.numeric) with
        | nil =>
            rw [hnum] at h
            cases hnonidx : df.cols.filter (fun c => c.name ≠ df.indexName.getD "index") with
            | nil =>
                rw [hnonidx] at h
                simp only [Except.error.injEq] at h
                exact ⟨rfl, rfl, rfl, h.symm⟩
            | cons c rest => rw [hnonidx] at h; exact absurd h (by simp)
        | cons c rest =>
            cases rest with
            | nil => rw [hnum] at h; exact absurd h (by simp)
            | cons c₂ rest₂ => rw [hnum] at h; exact absurd h (by simp)
  · intro ⟨h₁, h₂, h₃, h₄⟩
    rw [resolveValue, h₁, h₂, h₃, h₄]

/-- Claim C9 (confirmed): the normaliser resolves the value column in
exactly the documented order — (a) an existing column literally named
`value_name`; (b) otherwise a unique numeric column; (c) otherwise the
row-wise sum of the numeric columns; (d) otherwise the first non-index
column (coerced numerically downstream); and `_to_tidy` fails iff no
candidate column exists at all, with the `No value column` error. -/

theorem value_column_resolution (df : RawFrame) (vname : String) :
    (∀ c, df.cols.find? (fun c => c.name == vname) = some c →
        resolveValue df vname = Except.ok c.cells) ∧
      (df.cols.find? (fun c => c.name == vname) = none →
        ∀ c, df.cols.filter (fun c => c.numeric) = [c] →
          resolveValue df vname = Except.ok c.cells) ∧
      (df.cols.find? (fun c => c.name == vname) = none →
        2 ≤ (df.cols.filter (fun c => c.numeric)).length →
          resolveValue df vname = Except.ok
            (rowSum (df.cols.filter (fun c => c.numeric)) df.indexVals.length)) ∧
      (df.cols.find? (fun c => c.name == vname) = none →
        df.cols.filter (fun c => c.numeric) = [] →
        ∀ c rest,
          df.cols.filter (fun c => c.name ≠ df.indexName.getD "index") = c :: rest →
          resolveValue df vname = Except.ok c.cells) ∧
      (∀ e, «_to_tidy» df vname = Except.error e ↔
        (df.cols.find? (fun c => c.name == vname) = none ∧
          df.cols.filter (fun c => c.numeric) = [] ∧
          df.cols.filter (fun c => c.name ≠ df.indexName.getD "index") = [] ∧
          e = "No value column in response.")) := by
  refine ⟨?_, ?_, ?_, ?_, ?_⟩
  · intro c hc
    rw [resolveValue, hc]
  · intro hn c hf
    rw [resolveValue, hn, hf]
  · intro hn hlen
    cases hnum : df.cols.filter (fun c => c.numeric) with
    | nil => rw [hnum] at hlen; simp at hlen
    | cons c rest =>
        cases rest with
        | nil => rw [hnum] at hlen; simp at hlen
        | cons c₂ rest₂ =>
            rw [resolveValue, hn, hnum]
  · intro hn hf c rest hseq
    rw [resolveValue, hn, hf, hseq]
  · intro e
    constructor
    · intro h
      cases hres : resolveValue df vname with
      | error e' =>
          rw [«_to_tidy», hres] at h
          simp only [Except.map, Except.error.injEq] at h
          exact (resolveValue_error_iff df vname e).mp (h ▸ hres)
      | ok cells =>
          rw [«_to_tidy», hres] at h
          exact absurd h (by simp [Except.map])
    · intro hcond
      have hres := (resolveValue_error_iff df vname e).mpr hcond
      rw [«_to_tidy», hres]
      rfl

/-- Witness for `normalize_timezone_policy`: the first output row of the
concrete run carries its naive index entry tagged as UTC, unchanged. -/

theorem normalize_timezone_policy_witness :
    ∃ i : Int, (TidyRow.mk (some ⟨0, "UTC"⟩) (some 5)).date = some ⟨i, "UTC"⟩ ∧
      (some i) ∈ rawGood.indexVals :=
  normalize_timezone_policy rawGood "load_mw" tidyGood (by rfl)
    (TidyRow.mk (some ⟨0, "UTC"⟩) (some 5)) (by decide)

/-- Witness for `value_column_resolution`: concrete runs exercising the
unique-numeric-column case (b) and the no-candidate error case. -/

theorem value_column_resolution_witness :
    resolveValue rawGood "load_mw" =
      Except.ok [Cell.num 5, Cell.num 7] ∧
      («_to_tidy» rawNoValue "load_mw" = Except.error "No value column in response." ↔
        (rawNoValue.cols.find? (fun c => c.name == "load_mw") = none ∧
          rawNoValue.cols.filter (fun c => c.numeric) = [] ∧
          rawNoValue.cols.filter
            (fun c => c.name ≠ rawNoValue.indexName.getD "index") = [] ∧
          "No value column in response." = "No value column in response.")) := by
  constructor
  · exact (value_column_resolution rawGood "load_mw").2.1 (by rfl)
      (RawCol.mk "Actual Load" true [Cell.num 5, Cell.num 7]) (by rfl)
  · exact (value_column_resolution rawNoValue "load_mw").2.2.2.2
      "No value column in response."

/-! ## Claim C10 — no placeholder values in persisted storage (corrected)

The backfill script's `_to_tidy` does drop value-missing rows, but the
incremental pipeline does not: `fetch_load_df` coerces unparseable loads
to `NaN` without dropping them, and the reconciler's `dropna` subset is
only `["date", "zone"]`, so `NaN` loads are persisted. -/

/-- Counterexample to claim C10: a fetched frame whose single load cell is
unparseable flows through `fetch_load_df → to_storage_df →
update_history_parquet_multi` into the persisted table as a row whose
value is `NaN` (here `none`). -/

theorem nan_value_persisted :
    (fetch_load_df rawUnparseable TZ).map
        (fun d => update_history_parquet_multi none (to_storage_df d "SE_total")) =
      Except.ok [StorageRow.mk (some ⟨3600, "UTC"⟩) (some "SE_total") none] := rfl

/-- Claim C10 as amended: rows with a missing timestamp or zone are
dropped before persistence, and the backfill script's normaliser also
drops rows with missing or unparseable values, but the incremental
pipeline persists value-`NaN` rows (see `nan_value_persisted`). -/

theorem no_placeholder_amended :
    (∀ (hist : Option (List StorageRow)) (new_df : List StorageRow),
        ∀ r ∈ update_history_parquet_multi hist new_df,
          r.date.isSome = true ∧ r.zone.isSome = true) ∧
      (∀ (df : RawFrame) (vname : String) (out : List TidyRow),
        «_to_tidy» df vname = Except.ok out →
          ∀ r ∈ out, r.date.isSome = true ∧ r.value.isSome = true) := by
  constructor
  · intro hist new_df r hr
    have h := update_valid hist new_df r hr
    rw [validRow, Bool.and_eq_true] at h
    exact h
  · intro df vname out h r hr
    cases hres : resolveValue df vname with
    | error e =>
        rw [«_to_tidy», hres] at h
        exact absurd h (by simp [Except.map])
    | ok cells =>
        rw [«_to_tidy», hres] at h
        simp only [Except.map, Except.ok.injEq] at h
        rw [← h] at hr
        rw [mem_sortBy] at hr
        have hval := (List.mem_filter.mp hr).2
        have hr₁ := (List.mem_filter.mp hr).1
        rcases List.mem_map.mp hr₁ with ⟨p, hp, hpr⟩
        obtain ⟨p₁, p₂⟩ := p
        have hp₂ := (List.mem_filter.mp hp).2
        simp only [Bool.and_eq_true] at hp₂
        refine ⟨?_, hval⟩
        rw [← hpr]
        exact hp₂.1

/-- Witness for `no_placeholder_amended` at concrete runs of both the
reconciler and the backfill normaliser. -/

theorem no_placeholder_amended_witness :
    ((StorageRow.mk (some ⟨3600, "UTC"⟩) (some "SE1") (some 100)).date.isSome = true ∧
        (StorageRow.mk (some ⟨3600, "UTC"⟩) (some "SE1") (some 100)).zone.isSome = true) ∧
      ((TidyRow.mk (some ⟨0, "UTC"⟩) (some 5)).date.isSome = true ∧
        (TidyRow.mk (some ⟨0, "UTC"⟩) (some 5)).value.isSome = true) := by
  constructor
  · exact no_placeholder_amended.1 (some sampleT) [] _ (by decide)
  · exact no_placeholder_amended.2 rawGood "load_mw" tidyGood (by rfl) _ (by decide)

/-! ## Yearly-peak lemmas -/

theorem loadDescLT_irrefl (a : DRow) : loadDescLT a a = false := by
  cases h : a.load <;> simp [loadDescLT, h]

theorem loadDescLT_asymm (a b : DRow) (h : loadDescLT a b = true) :
    loadDescLT b a = false := by
  cases ha : a.load with
  | none => rw [loadDescLT, ha] at h; exact absurd h (by simp)
  | some x =>
      cases hb : b.load with
      | none => simp [loadDescLT, ha, hb]
      | some y =>
          rw [loadDescLT, ha, hb] at h
          simp only [decide_eq_true_eq] at h
          rw [loadDescLT, hb, ha]
          simp only [decide_eq_false_iff_not, not_lt]
          omega

theorem loadDescLT_negtrans (a b c : DRow) (h₁ : loadDescLT a b = false)
    (h₂ : loadDescLT b c = false) : loadDescLT a c = false := by
  cases ha : a.load with
  | none => simp [loadDescLT, ha]
  | some x =>
      cases hb : b.load with
      | none =>
          rw [loadDescLT, ha, hb] at h₁
          exact absurd h₁ (by simp)
      | some y =>
          cases hc : c.load with
          | none =>
              rw [loadDescLT, hb, hc] at h₂
              exact absurd h₂ (by simp)
          | some z =>
              rw [loadDescLT, ha, hb] at h₁
              rw [loadDescLT, hb, hc] at h₂
              rw [loadDescLT, ha, hc]
              simp only [decide_eq_false_iff_not, not_lt] at h₁ h₂ ⊢
              omega

theorem yearLT_irrefl (a : PeakRec) : yearLT a a = false := by simp [yearLT]

theorem yearLT_asymm (a b : PeakRec) (h : yearLT a b = true) : yearLT b a = false := by
  simp only [yearLT, decide_eq_true_eq] at h
  simp only [yearLT, decide_eq_false_iff_not, not_lt]
  omega

theorem yearLT_negtrans (a b c : PeakRec) (h₁ : yearLT a b = false)
    (h₂ : yearLT b c = false) : yearLT a c = false := by
  simp only [yearLT, decide_eq_false_iff_not, not_lt] at h₁ h₂ ⊢
  omega

theorem mem_uniqueFirstAux (seen : List Int) (l : List Int) (a : Int) :
    a ∈ uniqueFirstAux seen l ↔ a ∈ l ∧ a ∉ seen := by
  induction l generalizing seen with
  | nil => simp [uniqueFirstAux]
  | cons y ys ih =>
      simp only [uniqueFirstAux]
      by_cases hy : y ∈ seen
      · rw [if_pos hy, ih]
        constructor
        · intro ⟨h₁, h₂⟩
          exact ⟨List.mem_cons.mpr (Or.inr h₁), h₂⟩
        · intro ⟨h₁, h₂⟩
          rcases List.mem_cons.mp h₁ with h | h
          · rw [h] at h₂; exact absurd hy h₂
          · exact ⟨h, h₂⟩
      · rw [if_neg hy]
        constructor
        · intro h
          rcases List.mem_cons.mp h with h | h
          · rw [h]; exact ⟨List.mem_cons_self y ys, hy⟩
          · have := (ih (y :: seen)).mp h
            refine ⟨List.mem_cons.mpr (Or.inr this.1), ?_⟩
            intro hcon
            exact this.2 (List.mem_cons.mpr (Or.inr hcon))
        · intro ⟨h₁, h₂⟩
          rcases List.mem_cons.mp h₁ with h | h
          · rw [h]; exact List.mem_cons_self y _
          · by_cases hay : a = y
            · rw [hay]; exact List.mem_cons_self y _
            · refine List.mem_cons.mpr (Or.inr ((ih (y :: seen)).mpr ⟨h, ?_⟩))
              intro hcon
              rcases List.mem_cons.mp hcon with hc | hc
              · exact hay hc
              · exact h₂ hc

theorem mem_uniqueFirst (l : List Int) (a : Int) : a ∈ uniqueFirst l ↔ a ∈ l := by
  rw [uniqueFirst, mem_uniqueFirstAux]
  simp

theorem nodup_uniqueFirstAux (seen : List Int) (l : List Int) :
    (uniqueFirstAux seen l).Nodup := by
  induction l generalizing seen with
  | nil => simp [uniqueFirstAux]
  | cons y ys ih =>
      simp only [uniqueFirstAux]
      by_cases hy : y ∈ seen
      · rw [if_pos hy]; exact ih seen
      · rw [if_neg hy]
        rw [List.nodup_cons]
        refine ⟨?_, ih (y :: seen)⟩
        intro hcon
        have := (mem_uniqueFirstAux (y :: seen) ys y).mp hcon
        exact this.2 (List.mem_cons_self y seen)

theorem nodup_uniqueFirst (l : List Int) : (uniqueFirst l).Nodup :=
  nodup_uniqueFirstAux [] l

theorem head?_of_ne_nil {α : Type} (l : List α) (h : l ≠ []) :
    ∃ m, l.head? = some m := by
  cases l with
  | nil => exact absurd rfl h
  | cons a as => exact ⟨a, rfl⟩

/-- If `f` succeeds on every element and preserves a projection, the
`filterMap` image projects back onto the original list. -/

theorem filterMap_map_proj {α β : Type} (l : List α) (f : α → Option β)
    (g : β → α) (hf : ∀ a ∈ l, ∃ b, f a = some b ∧ g b = a) :
    (l.filterMap f).map g = l := by
  induction l with
  | nil => simp
  | cons a as ih =>
      rcases hf a (List.mem_cons_self a as) with ⟨b, hb, hgb⟩
      rw [List.filterMap_cons, hb]
      simp only [List.map_cons, hgb]
      rw [ih (fun x hx => hf x (List.mem_cons.mpr (Or.inr hx)))]

theorem compute_yearly_peak_loads_eq (df : List DRow) :
    compute_yearly_peak_loads df =
      if (peakRows df).isEmpty then Except.error "KeyError: Year"
      else Except.ok (sortBy yearLT (peakRows df)) := rfl

theorem peak_head_total (df : List DRow) (y : Int) (hy : y ∈ peakYears df) :
    ∃ m, (sortBy loadDescLT (df.filter (fun r => decide (r.Date.year = y)))).head? =
      some m := by
  have hy' : y ∈ df.map (fun r => r.Date.year) := (mem_uniqueFirst _ y).mp hy
  rcases List.mem_map.mp hy' with ⟨r, hr, hry⟩
  have hfil : df.filter (fun r => decide (r.Date.year = y)) ≠ [] := by
    intro hcon
    have hmem : r ∈ df.filter (fun r => decide (r.Date.year = y)) :=
      List.mem_filter.mpr ⟨hr, by simp [hry]⟩
    rw [hcon] at hmem
    exact List.not_mem_nil r hmem
  exact head?_of_ne_nil _ (sortBy_ne_nil _ _ hfil)

theorem peakRows_map_year (df : List DRow) :
    (peakRows df).map PeakRec.Year = peakYears df := by
  apply filterMap_map_proj
  intro y hy
  rcases peak_head_total df y hy with ⟨m, hm⟩
  exact ⟨PeakRec.mk y m.Date m.load, by rw [hm]; rfl, rfl⟩

theorem peakRows_ne_nil (df : List DRow) (hne : df ≠ []) : peakRows df ≠ [] := by
  cases df with
  | nil => exact absurd rfl hne
  | cons r rs =>
      have hy : r.Date.year ∈ peakYears (r :: rs) := by
        rw [peakYears, mem_uniqueFirst]
        exact List.mem_map.mpr ⟨r, List.mem_cons_self r rs, rfl⟩
      rcases peak_head_total (r :: rs) _ hy with ⟨m, hm⟩
      intro hcon
      have hmem : PeakRec.mk r.Date.year m.Date m.load ∈ peakRows (r :: rs) :=
        List.mem_filterMap.mpr ⟨r.Date.year, hy, by rw [hm]; rfl⟩
      rw [hcon] at hmem
      exact List.not_mem_nil _ hmem

theorem mem_peakRows (df : List DRow) (p : PeakRec) (hp : p ∈ peakRows df) :
    ∃ m ∈ df, m.Date.year = p.Year ∧ p.Date = m.Date ∧ p.load = m.load ∧
      ∀ x ∈ df, x.Date.year = p.Year → loadDescLT x m = false := by
  rcases List.mem_filterMap.mp hp with ⟨y, hy, hf⟩
  rcases Option.map_eq_some'.mp hf with ⟨m, hm, hmp⟩
  have hmax := head?_sortBy loadDescLT loadDescLT_irrefl loadDescLT_asymm
    loadDescLT_negtrans _ m hm
  have hmem := List.mem_filter.mp hmax.1
  have hyear : m.Date.year = y := of_decide_eq_true hmem.2
  refine ⟨m, hmem.1, ?_, ?_, ?_, ?_⟩
  · rw [hyear, ← hmp]
  · rw [← hmp]
  · rw [← hmp]
  · intro x hx hxy
    apply hmax.2
    apply List.mem_filter.mpr
    refine ⟨hx, ?_⟩
    rw [← hmp] at hxy
    simp [hxy, hyear]

/-! ## Claim C5 — yearly peak correctness -/

/-- Claim C5 (confirmed): on a non-empty display table with present
values, the extractor returns exactly one record per distinct calendar
year, in strictly ascending year order, each record carrying the
timestamp and value of a row attaining that year's maximum value; and on
the spec's concrete example it returns
`[(2023, 2023-06-01, 500), (2024, 2024-01-01, 200)]`. -/

theorem yearly_peak_correctness :
    (∀ df : List DRow, df ≠ [] → (∀ r ∈ df, r.load.isSome = true) →
      ∃ recs, compute_yearly_peak_loads df = Except.ok recs ∧
        (recs.map PeakRec.Year).Pairwise (fun a b => a < b) ∧
        (∀ y : Int, y ∈ recs.map PeakRec.Year ↔ y ∈ df.map (fun r => r.Date.year)) ∧
        (∀ p ∈ recs, ∃ r ∈ df, r.Date.year = p.Year ∧ p.Date = r.Date ∧
          p.load = r.load ∧
          ∀ x ∈ df, x.Date.year = p.Year → x.load.getD 0 ≤ r.load.getD 0)) ∧
      compute_yearly_peak_loads exampleRows =
        Except.ok [PeakRec.mk 2023 ⟨2023, 217440⟩ (some 500),
          PeakRec.mk 2024 ⟨2024, 0⟩ (some 200)] := by
  constructor
  · intro df hne hsome
    have hempty : (peakRows df).isEmpty = false := by
      cases hpr : peakRows df with
      | nil => exact absurd hpr (peakRows_ne_nil df hne)
      | cons a t => rfl
    refine ⟨sortBy yearLT (peakRows df), ?_, ?_, ?_, ?_⟩
    · rw [compute_yearly_peak_loads_eq, hempty]
      rfl
    · have hsorted := sortBy_sorted yearLT yearLT_asymm yearLT_negtrans (peakRows df)
      have h1 : ((sortBy yearLT (peakRows df)).map PeakRec.Year).Pairwise
          (fun a b => a ≤ b) := by
        rw [List.pairwise_map]
        refine hsorted.imp ?_
        intro a b h
        simp only [yearLT, decide_eq_false_iff_not, not_lt] at h
        exact h
      have h2 : ((sortBy yearLT (peakRows df)).map PeakRec.Year).Nodup := by
        have hperm := (sortBy_perm yearLT (peakRows df)).map PeakRec.Year
        rw [hperm.nodup_iff, peakRows_map_year]
        exact nodup_uniqueFirst _
      exact (pairwise_and h1 h2).imp (fun h => lt_of_le_of_ne h.1 h.2)
    · intro y
      have hperm := (sortBy_perm yearLT (peakRows df)).map PeakRec.Year
      rw [hperm.mem_iff, peakRows_map_year, peakYears, mem_uniqueFirst]
    · intro p hp
      have hp' : p ∈ peakRows df := (mem_sortBy yearLT _ p).mp hp
      rcases mem_peakRows df p hp' with ⟨m, hm, hy, hd, hl, hmax⟩
      refine ⟨m, hm, hy, hd, hl, ?_⟩
      intro x hx hxy
      have hlt := hmax x hx hxy
      rcases Option.isSome_iff_exists.mp (hsome x hx) with ⟨xv, hxv⟩
      rcases Option.isSome_iff_exists.mp (hsome m hm) with ⟨mv, hmv⟩
      rw [loadDescLT, hxv, hmv] at hlt
      simp only [decide_eq_false_iff_not, not_lt] at hlt
      rw [hxv, hmv]
      simpa using hlt
  · rfl

/-- Witness for `yearly_peak_correctness` at a concrete one-row table. -/

theorem yearly_peak_correctness_witness :
    ∃ recs, compute_yearly_peak_loads [DRow.mk ⟨2020, 0⟩ (some 7)] = Except.ok recs ∧
      (recs.map PeakRec.Year).Pairwise (fun a b => a < b) ∧
      (∀ y : Int, y ∈ recs.map PeakRec.Year ↔
        y ∈ [DRow.mk ⟨2020, 0⟩ (some 7)].map (fun r => r.Date.year)) ∧
      (∀ p ∈ recs, ∃ r ∈ [DRow.mk ⟨2020, 0⟩ (some 7)],
        r.Date.year = p.Year ∧ p.Date = r.Date ∧ p.load = r.load ∧
        ∀ x ∈ [DRow.mk ⟨2020, 0⟩ (some 7)],
          x.Date.year = p.Year → x.load.getD 0 ≤ r.load.getD 0) :=
  yearly_peak_correctness.1 [DRow.mk ⟨2020, 0⟩ (some 7)] (by decide) (by decide)
